import Mathlib

/-!
Verification of the Telegram ingestion / enrichment pipeline.

Shallow embedding of the pipeline's core operations:
* the media-asset filename codec (`scraper.py` line 111 encodes
  `{channel}_{message_id}_{photo_id}.jpg`; `yolo_enricher.py` lines 102-108
  decode it with `image_filename.split('_')` and `int(parts[1])`),
* the record normalizer `sanitize_dict` (`scraper.py` lines 47-58),
* the idempotent loader `load_json_to_postgres`
  (`load_raw_to_postgres.py` lines 67-143, with the `raw_telegram_messages`
  UNIQUE (message_id, channel_username) constraint of `create_raw_table`),
* the YOLO enricher `run_yolo_enrichment` (`yolo_enricher.py` lines 71-173,
  with the `raw_yolo_detections` UNIQUE constraint of `create_raw_yolo_table`),
* the bounded history crawler `scrape_channel` (`scraper.py` lines 70-135),
* the channel-partitioned writer `save_channel_data`
  (`scraper.py` lines 138-154).

Strings that flow through the codec are modelled as `List Char`, machine
integers as `Nat`/`Int` (none of the arithmetic here can overflow a Python
int), and the two PostgreSQL tables as association lists whose insert
operation implements `INSERT ... ON CONFLICT ... DO NOTHING`.

All definitions come first, followed by the development's theorems.
-/

/-! # Definitions -/

/-! ## Decimal printing and parsing of message identifiers

Python's f-string interpolation prints a nonnegative integer in decimal;
`int(s)` parses it back.  `natToChars` is the decimal printer (fuel-based so
that it computes by kernel reduction), `parseNat` the digits-only fragment of
`int` that the enricher can ever meet after `split('_')`. -/

/-- Fuel-based big-endian decimal printer, accumulating digits on the left. -/
def natToCharsGo : Nat → Nat → List Char → List Char
  | 0, _, acc => acc
  | fuel + 1, n, acc =>
    if n = 0 then acc else natToCharsGo fuel (n / 10) (Nat.digitChar (n % 10) :: acc)

/-- Decimal representation of a natural number, as Python's `str`/f-string
prints it (`str(0) = "0"`). -/
def natToChars (n : Nat) : List Char :=
  if n = 0 then ['0'] else natToCharsGo n n []

/-- Digits-only fragment of Python's `int(s)`: succeeds exactly on nonempty
all-digit strings (the only shape `int(parts[1])` can succeed on that the
filename codec produces). -/
def parseNat (s : List Char) : Option Nat :=
  if s ≠ [] ∧ s.all Char.isDigit then
    some (s.foldl (fun a c => a * 10 + (c.toNat - 48)) 0)
  else none

/-! ## The media-asset filename codec

Encoding (`scraper.py` line 111):
`image_filename = f"{channel_username}_{message.id}_{message.media.photo.id}.jpg"`.

Decoding (`yolo_enricher.py` lines 103-105):
`parts = image_filename.split('_')` and `message_id = int(parts[1])`;
an `IndexError`/`ValueError` makes the enricher skip the file. -/

/-- Media-asset filename for a (channel handle, message id, photo id) triple,
exactly as `scrape_channel` builds it. -/
def image_filename (channel : List Char) (message_id photo_id : Nat) : List Char :=
  channel ++ '_' :: (natToChars message_id ++ '_' :: (natToChars photo_id ++ ".jpg".data))

/-- Underscore split of a filename, as `image_filename.split('_')`. -/
def filename_parts (filename : List Char) : List (List Char) :=
  filename.splitOn '_'

/-- Message-identifier extraction of the enricher: `int(parts[1])`, with both
the `IndexError` and the `ValueError` path mapped to `none`. -/
def extract_message_id (filename : List Char) : Option Nat :=
  match filename_parts filename with
  | _ :: p1 :: _ => parseNat p1
  | _ => none

/-- Decoder of the filename format as a whole: the first underscore-separated
part is the channel handle and the second is the message identifier.  The
enricher itself only consumes the message-identifier projection
(`extract_message_id`); the channel handle is carried by `parts[0]`. -/
def decode_image_filename (filename : List Char) : Option (List Char × Nat) :=
  match filename_parts filename with
  | p0 :: p1 :: _ => (parseNat p1).map (fun m => (p0, m))
  | _ => none

/-! ## The record normalizer (`sanitize_dict`, `scraper.py` lines 47-58)

The untyped Python values reaching `sanitize_dict` are nested trees of
insertion-ordered dicts, lists, byte strings, and other scalars.  The
`path` argument of the source only feeds a debug log and is dropped. -/

/-- Closed variant of the dynamic values `sanitize_dict` traverses: maps
(ordered key/value lists), sequences, binary blobs, and all other scalars
(condensed to an `Int` tag — `sanitize_dict` never inspects them). -/
inductive PyVal : Type where
  | dict : List (String × PyVal) → PyVal
  | list : List PyVal → PyVal
  | bytes : List Nat → PyVal
  | scalar : Int → PyVal

/-- Python's `isinstance(v, bytes)` test used by the dict branch. -/
def PyVal.isBytes : PyVal → Bool
  | PyVal.bytes _ => true
  | _ => false

mutual

/-- The record normalizer: dict entries whose value is a byte string are
dropped, other entries are kept in order with the value normalized
recursively; list elements are normalized elementwise; anything else is
returned unchanged. -/
def sanitize_dict : PyVal → PyVal
  | PyVal.dict kvs => PyVal.dict (sanitizeEntries kvs)
  | PyVal.list xs => PyVal.list (sanitizeElems xs)
  | v => v

/-- Dict branch of `sanitize_dict`: the `for k, v in obj.items()` loop. -/
def sanitizeEntries : List (String × PyVal) → List (String × PyVal)
  | [] => []
  | (k, v) :: rest =>
    if v.isBytes then sanitizeEntries rest
    else (k, sanitize_dict v) :: sanitizeEntries rest

/-- List branch of `sanitize_dict`: the list comprehension. -/
def sanitizeElems : List PyVal → List PyVal
  | [] => []
  | v :: rest => sanitize_dict v :: sanitizeElems rest

end

mutual

/-- Check that no dict entry anywhere in the tree has a byte-string value. -/
def noBytesValuedField : PyVal → Bool
  | PyVal.dict kvs => entriesClean kvs
  | PyVal.list xs => elemsClean xs
  | _ => true

/-- Entry list form of `noBytesValuedField`. -/
def entriesClean : List (String × PyVal) → Bool
  | [] => true
  | (_, v) :: rest => !v.isBytes && noBytesValuedField v && entriesClean rest

/-- Element list form of `noBytesValuedField`. -/
def elemsClean : List PyVal → Bool
  | [] => true
  | v :: rest => noBytesValuedField v && elemsClean rest

end

/-! ## The idempotent loader (`load_raw_to_postgres.py`)

A raw message as the loader sees it after `json.load`: the two fields it
reads (`msg.get('id')`, `msg.get('channel_username')`), both possibly
absent, plus the rest of the payload condensed to an opaque string (the
loader only ever passes the whole record through `json.dumps`, which is
injective on it). -/

/-- One element of the list a BatchUnit JSON file decodes to. -/
structure Msg where
  id : Option Int
  channel_username : Option String
  payload : String
deriving DecidableEq, Repr

/-- One row of `raw.raw_telegram_messages`; `message_data` is the
`json.dumps` image of the whole record, modelled by the record itself.  The
serial `id` and `scraped_at` columns are generated noise and not modelled. -/
structure RawRow where
  message_id : Int
  channel_username : String
  message_data : Msg
deriving DecidableEq, Repr

/-- The per-record preparation loop (lines 106-113): records missing `id` or
`channel_username` are skipped with a warning, the rest become VALUES rows. -/
def prepValues (msgs : List Msg) : List (Int × String × Msg) :=
  msgs.filterMap fun m =>
    match m.id, m.channel_username with
    | some i, some c => some (i, c, m)
    | _, _ => none

/-- Test for an existing row with the given natural key, i.e. for what the
UNIQUE (message_id, channel_username) constraint would reject. -/
def hasKey (table : List RawRow) (i : Int) (c : String) : Bool :=
  table.any fun r => r.message_id == i && r.channel_username == c

/-- Effect of one prepared VALUES row under
`INSERT ... ON CONFLICT (message_id, channel_username) DO NOTHING`. -/
def insertRawRow (table : List RawRow) (v : Int × String × Msg) : List RawRow :=
  if hasKey table v.1 v.2.1 then table else table ++ [⟨v.1, v.2.1, v.2.2⟩]

/-- Table-level effect of loading one BatchUnit file on the success path
(lines 104-127): prepare the VALUES list, `executemany` the conflict-ignoring
insert, commit. -/
def loadFile (table : List RawRow) (msgs : List Msg) : List RawRow :=
  (prepValues msgs).foldl insertRawRow table

/-! ### Connection-level model of the loader run

`load_json_to_postgres` drives one psycopg2 connection through all BatchUnit
files.  A PostgreSQL transaction buffers inserts until `commit`; a database
error while a statement executes puts the transaction into the aborted
state, in which every later statement raises `InFailedSqlTransaction`
immediately and a `commit` is executed by the server as a rollback.  The
environment's possible insert-time database errors (e.g. oversized values)
are injected through the `raises` predicate. -/

/-- State of the single psycopg2 connection: rows already committed, rows
pending in the open transaction, and whether the transaction is aborted. -/
structure PgConn where
  committed : List RawRow
  pending : List RawRow
  aborted : Bool
deriving DecidableEq, Repr

/-- Fresh connection as `get_db_connection` returns it. -/
def pgConnInit : PgConn := ⟨[], [], false⟩

/-- Rows visible to a statement inside the current transaction. -/
def pgVisible (c : PgConn) : List RawRow := c.committed ++ c.pending

/-- One successfully executed conflict-ignoring INSERT. -/
def pgExecInsert (c : PgConn) (v : Int × String × Msg) : PgConn :=
  if hasKey (pgVisible c) v.1 v.2.1 then c
  else { c with pending := c.pending ++ [⟨v.1, v.2.1, v.2.2⟩] }

/-- `cur.executemany` over the prepared VALUES rows: statements run one by
one; a raising statement aborts the transaction and raises; on an already
aborted transaction the first statement raises `InFailedSqlTransaction`.
The boolean is `true` when no exception escaped. -/
def execMany (raises : Int × String × Msg → Bool) :
    PgConn → List (Int × String × Msg) → PgConn × Bool
  | c, [] => (c, true)
  | c, v :: vs =>
    if c.aborted then (c, false)
    else if raises v then ({ c with aborted := true }, false)
    else execMany raises (pgExecInsert c v) vs

/-- `conn.commit()`: publishes the pending rows; on an aborted transaction
the server turns COMMIT into a rollback. -/
def pgCommit (c : PgConn) : PgConn :=
  if c.aborted then { committed := c.committed, pending := [], aborted := false }
  else { committed := c.committed ++ c.pending, pending := [], aborted := false }

/-- Per-file body of the loading loop (lines 96-132): empty files are
skipped; otherwise the VALUES rows are prepared and `executemany`-inserted
and the connection committed.  When an exception is raised mid-file the
`except` handler (lines 129-132) only logs — it does NOT roll back — and the
loop continues with the next file. -/
def processFile (raises : Int × String × Msg → Bool) (c : PgConn) (msgs : List Msg) : PgConn :=
  if msgs.isEmpty then c
  else
    match execMany raises c (prepValues msgs) with
    | (c1, true) => pgCommit c1
    | (c1, false) => c1

/-- Whole loader run over the BatchUnit files found in the data lake:
process every file, then `conn.close()`, which discards whatever is still
pending.  The result is the durable table content. -/
def load_json_to_postgres (raises : Int × String × Msg → Bool)
    (files : List (List Msg)) : List RawRow :=
  (files.foldl (processFile raises) pgConnInit).committed

/-- Failure-injection environment for the concrete run below: inserting the
record with message id 99 raises a database error (say, an oversized
payload), every other insert succeeds. -/
def raisesOn99 (v : Int × String × Msg) : Bool := v.1 == 99

/-- First record of the first BatchUnit of the concrete run. -/
def msgA : Msg := ⟨some 1, some "chan", "payload-1"⟩

/-- Poisoned second record of the first BatchUnit: its insert raises. -/
def msgBoom : Msg := ⟨some 99, some "chan", "payload-boom"⟩

/-- Sole record of the second BatchUnit. -/
def msgB : Msg := ⟨some 2, some "chan", "payload-2"⟩

/-! ## The asset-correlation enricher (`yolo_enricher.py`)

The YOLO model is an external collaborator: a function from image file name
to a list of findings (class name, confidence, bounding box).  Confidence
values and box coordinates are opaque to the control flow modelled here, so
they are carried as integers. -/

/-- One finding returned by the detection model for an image. -/
structure Finding where
  class_name : String
  confidence : Int
  bbox : List Int
deriving DecidableEq, Repr

/-- One row of `raw.raw_yolo_detections` (generated columns not modelled). -/
structure DetRow where
  message_id : Nat
  image_filename : List Char
  detected_object_class : String
  confidence : Int
  bounding_box : List Int
deriving DecidableEq, Repr

/-- Test for what the UNIQUE (message_id, image_filename,
detected_object_class, confidence) constraint would reject. -/
def detConflict (table : List DetRow) (r : DetRow) : Bool :=
  table.any fun x =>
    x.message_id == r.message_id && x.image_filename == r.image_filename
      && x.detected_object_class == r.detected_object_class && x.confidence == r.confidence

/-- Effect of one detection row under the conflict-ignoring INSERT of
lines 145-151. -/
def insertDetRow (table : List DetRow) (r : DetRow) : List DetRow :=
  if detConflict table r then table else table ++ [r]

/-- The asset-granularity idempotency guard (lines 112-118): any existing
detection keyed to this (message id, filename) pair. -/
def assetProcessed (table : List DetRow) (mid : Nat) (f : List Char) : Bool :=
  table.any fun x => x.message_id == mid && x.image_filename == f

/-- Per-image body of the enrichment loop (lines 98-162): extract the
message id from the filename (skip on failure), skip if already processed,
otherwise run the model once and insert every finding conflict-ignoring,
committing per image. -/
def processImage (model : List Char → List Finding)
    (table : List DetRow) (f : List Char) : List DetRow :=
  match extract_message_id f with
  | none => table
  | some mid =>
    if assetProcessed table mid f then table
    else
      (model f).foldl
        (fun tb fd => insertDetRow tb ⟨mid, f, fd.class_name, fd.confidence, fd.bbox⟩)
        table

/-- Whole enrichment run over the image files found in the download
directory. -/
def run_yolo_enrichment (model : List Char → List Finding)
    (table : List DetRow) (files : List (List Char)) : List DetRow :=
  files.foldl (processImage model) table

/-! ## The bounded history crawler (`scrape_channel`, `scraper.py` lines 70-135)

The remote history source holds one channel's messages newest-first; a
`GetHistoryRequest(offset_id, limit)` returns up to `limit` messages older
than the message with id `offset_id` (all of them for the initial sentinel
`offset_id = 0`), newest-first.  Timestamps are integers; the boundary
`start_date = now - lookback` mirrors `datetime.now() - timedelta(days_back)`. -/

/-- One remote message: identifier and timestamp (the payload plays no role
in the crawl/stop logic). -/
structure TMessage where
  id : Nat
  date : Int
deriving DecidableEq, Repr

/-- Semantics of `GetHistoryRequest` against the channel's full
newest-first history. -/
def getHistoryRequest (history : List TMessage) (offset_id limit : Nat) : List TMessage :=
  (history.filter fun m => offset_id == 0 || decide (m.id < offset_id)).take limit

/-- The crawl loop (`while True:` of lines 81-129), instrumented with the
list of `offset_id` cursors used by the successive page requests.  Each
iteration requests a page; an empty page ends the crawl; otherwise the page
is scanned newest-first, keeping messages until one falls before
`start_date` (which sets `stop_scraping`); the oldest id of the page becomes
the next cursor, and the loop ends on `stop_scraping` or a short page.
`fuel` bounds the iteration count (the caller passes enough for the loop
never to be cut short). -/
def scrapeLoopTrace (history : List TMessage) (limit : Nat) (start_date : Int) :
    Nat → Nat → List TMessage → List Nat → List TMessage × List Nat
  | 0, _, collected, cursors => (collected, cursors)
  | fuel + 1, offset_id, collected, cursors =>
    match getHistoryRequest history offset_id limit with
    | [] => (collected, cursors ++ [offset_id])
    | msg0 :: page_rest =>
      let messages := msg0 :: page_rest
      let retained := messages.takeWhile fun m => !decide (m.date < start_date)
      let stop_scraping := decide (retained.length < messages.length)
      let collected' := collected ++ retained
      let offset' := (messages.getLast (List.cons_ne_nil msg0 page_rest)).id
      if stop_scraping || decide (messages.length < limit) then (collected', cursors ++ [offset_id])
      else scrapeLoopTrace history limit start_date fuel offset' collected' (cursors ++ [offset_id])

/-- Messages collected by `scrape_channel(client, channel, limit, days_back)`
for a channel whose full history is `history`, at time `now` with lookback
window `lookback`. -/
def scrape_channel (history : List TMessage) (limit : Nat) (now lookback : Int) :
    List TMessage :=
  (scrapeLoopTrace history limit (now - lookback) (history.length + 1) 0 [] []).1

/-- Cursors (`offset_id` values) of the successive page requests the same
crawl issues. -/
def scrape_cursors (history : List TMessage) (limit : Nat) (now lookback : Int) :
    List Nat :=
  (scrapeLoopTrace history limit (now - lookback) (history.length + 1) 0 [] []).2

/-! ## The channel-partitioned writer (`save_channel_data`, lines 138-154)

The filesystem is an association list from paths (component lists) to file
contents; `open(json_path, 'w')` truncates, so a write replaces the file's
previous content wholesale. -/

/-- Output path `data/raw/telegram_messages/<today>/<channel>/<channel>.json`. -/
def data_lake_path (today channel : String) : List String :=
  ["data", "raw", "telegram_messages", today, channel, channel ++ ".json"]

/-- Truncating write: the path maps to exactly the new content afterwards. -/
def fsWrite (fs : List (List String × List Msg)) (p : List String)
    (content : List Msg) : List (List String × List Msg) :=
  (p, content) :: fs.filter fun e => !(e.1 == p)

/-- Content of the file at a path, when present. -/
def fsRead (fs : List (List String × List Msg)) (p : List String) : Option (List Msg) :=
  (fs.find? fun e => e.1 == p).map fun e => e.2

/-- `save_channel_data(data, channel_username)` on run-date `today`: writing
zero records is a no-op, otherwise the channel's batch file is opened in
truncating write mode and the whole batch serialized into it. -/
def save_channel_data (fs : List (List String × List Msg)) (data : List Msg)
    (today channel : String) : List (List String × List Msg) :=
  if data.isEmpty then fs else fsWrite fs (data_lake_path today channel) data

/-! # Theorems -/

/-! ## Decimal printer / parser -/

theorem natToCharsGo_eq (fuel : Nat) :
    ∀ n acc, n ≤ fuel →
      natToCharsGo fuel n acc = ((Nat.digits 10 n).map Nat.digitChar).reverse ++ acc := by
  induction fuel with
  | zero =>
    intro n acc hn
    interval_cases n
    simp [natToCharsGo]
  | succ fuel ih =>
    intro n acc hn
    by_cases h0 : n = 0
    · subst h0; simp [natToCharsGo]
    · have hdiv : n / 10 ≤ fuel := by
        have hlt : n / 10 < n := Nat.div_lt_self (Nat.pos_of_ne_zero h0) (by omega)
        omega
      rw [natToCharsGo, if_neg h0, ih _ _ hdiv,
        Nat.digits_def' (by omega : (1:Nat) < 10) (Nat.pos_of_ne_zero h0)]
      simp

theorem natToChars_eq (n : Nat) (h : n ≠ 0) :
    natToChars n = ((Nat.digits 10 n).map Nat.digitChar).reverse := by
  rw [natToChars, if_neg h, natToCharsGo_eq n n [] (Nat.le_refl n)]
  simp

theorem digitChar_isDigit {d : Nat} (h : d < 10) : (Nat.digitChar d).isDigit = true := by
  interval_cases d <;> decide

theorem digitChar_ne_underscore {d : Nat} (h : d < 10) : Nat.digitChar d ≠ '_' := by
  interval_cases d <;> decide

theorem digitChar_toNat {d : Nat} (h : d < 10) : (Nat.digitChar d).toNat - 48 = d := by
  interval_cases d <;> decide

theorem underscore_notin_natToChars (n : Nat) : '_' ∉ natToChars n := by
  by_cases h : n = 0
  · subst h; decide
  · rw [natToChars_eq n h]
    intro hmem
    rw [List.mem_reverse, List.mem_map] at hmem
    obtain ⟨d, hd, hdc⟩ := hmem
    exact digitChar_ne_underscore (Nat.digits_lt_base (by omega) hd) hdc

theorem foldl_digits_reverse (L : List Nat) (hL : ∀ d ∈ L, d < 10) :
    ((L.map Nat.digitChar).reverse).foldl (fun a c => a * 10 + (c.toNat - 48)) 0
      = Nat.ofDigits 10 L := by
  induction L with
  | nil => simp [Nat.ofDigits_nil]
  | cons d tl ih =>
    have hd : d < 10 := hL d (by simp)
    have htl : ∀ x ∈ tl, x < 10 := fun x hx => hL x (by simp [hx])
    simp only [List.map_cons, List.reverse_cons, List.foldl_append, ih htl,
      List.foldl_cons, List.foldl_nil, Nat.ofDigits_cons, digitChar_toNat hd]
    ring

theorem parseNat_natToChars (n : Nat) : parseNat (natToChars n) = some n := by
  by_cases h : n = 0
  · subst h; decide
  · rw [natToChars_eq n h, parseNat]
    have hne : ((Nat.digits 10 n).map Nat.digitChar).reverse ≠ [] := by
      simp [Nat.digits_ne_nil_iff_ne_zero.mpr h]
    have hall : (((Nat.digits 10 n).map Nat.digitChar).reverse).all Char.isDigit = true := by
      rw [List.all_eq_true]
      intro c hc
      rw [List.mem_reverse, List.mem_map] at hc
      obtain ⟨d, hd, hdc⟩ := hc
      exact hdc ▸ digitChar_isDigit (Nat.digits_lt_base (by omega) hd)
    rw [if_pos ⟨hne, hall⟩,
      foldl_digits_reverse _ (fun d hd => Nat.digits_lt_base (by omega) hd),
      Nat.ofDigits_digits]

/-! ## The filename codec: claim C1 -/

theorem image_filename_eq_intercalate (channel : List Char) (message_id photo_id : Nat) :
    image_filename channel message_id photo_id
      = List.intercalate ['_']
          [channel, natToChars message_id, natToChars photo_id ++ ".jpg".data] := by
  simp [image_filename, List.intercalate]

theorem filename_parts_image_filename (channel : List Char) (message_id photo_id : Nat)
    (h : '_' ∉ channel) :
    filename_parts (image_filename channel message_id photo_id)
      = [channel, natToChars message_id, natToChars photo_id ++ ".jpg".data] := by
  rw [filename_parts, image_filename_eq_intercalate]
  refine List.splitOn_intercalate _ '_' ?_ (by simp)
  intro l hl
  simp only [List.mem_cons, List.not_mem_nil, or_false] at hl
  rcases hl with rfl | rfl | rfl
  · exact h
  · exact underscore_notin_natToChars message_id
  · intro hmem
    rcases List.mem_append.mp hmem with hmem | hmem
    · exact underscore_notin_natToChars photo_id hmem
    · simp at hmem

/-- C1 (counterexample): for the valid triple (channel `a_b`, message id 1,
media id 2) — Telegram handles may contain underscores — encoding the media
asset filename and then decoding it does NOT recover the channel handle and
message identifier: the underscore split misaligns, `int(parts[1])` gets the
non-numeric `b`, and decoding fails entirely (the enricher would skip the
asset). -/
theorem C1_filename_roundtrip_counterexample :
    decode_image_filename (image_filename ('a' :: '_' :: 'b' :: []) 1 2) = none
      ∧ extract_message_id (image_filename ('a' :: '_' :: 'b' :: []) 1 2) = none := by
  decide

/-- C1 (amended): for every valid triple whose channel handle contains no
underscore, encoding the media asset filename as
`channel_messageid_photoid.jpg` and then decoding it recovers the original
channel handle and message identifier exactly (and the enricher's own
message-id extraction recovers the message identifier). -/
theorem C1_filename_roundtrip_amended (channel : List Char) (message_id photo_id : Nat)
    (h : '_' ∉ channel) :
    decode_image_filename (image_filename channel message_id photo_id)
        = some (channel, message_id)
      ∧ extract_message_id (image_filename channel message_id photo_id) = some message_id := by
  have hparts := filename_parts_image_filename channel message_id photo_id h
  constructor
  · rw [decode_image_filename, hparts]
    simp [parseNat_natToChars]
  · rw [extract_message_id, hparts]
    simp [parseNat_natToChars]

/-- C1 (witness): the amended round trip at channel `ch`, message id 12,
media id 7. -/
theorem C1_filename_roundtrip_amended_witness :
    '_' ∉ ('c' :: 'h' :: [])
      ∧ (decode_image_filename (image_filename ('c' :: 'h' :: []) 12 7)
            = some (('c' :: 'h' :: []), 12)
          ∧ extract_message_id (image_filename ('c' :: 'h' :: []) 12 7) = some 12) :=
  ⟨by decide, C1_filename_roundtrip_amended ('c' :: 'h' :: []) 12 7 (by decide)⟩

/-! ## The record normalizer: claim C4 -/

theorem sanitizeElems_eq_map : ∀ xs : List PyVal, sanitizeElems xs = xs.map sanitize_dict
  | [] => rfl
  | v :: rest => by rw [sanitizeElems, List.map_cons, sanitizeElems_eq_map rest]

theorem sanitizeEntries_eq_filter_map : ∀ kvs : List (String × PyVal),
    sanitizeEntries kvs
      = (kvs.filter fun kv => !kv.2.isBytes).map fun kv => (kv.1, sanitize_dict kv.2)
  | [] => rfl
  | (k, v) :: rest => by
    by_cases hv : v.isBytes
    · simp [sanitizeEntries, hv, sanitizeEntries_eq_filter_map rest]
    · simp [sanitizeEntries, hv, sanitizeEntries_eq_filter_map rest]

theorem isBytes_sanitize_dict (v : PyVal) (h : v.isBytes = false) :
    (sanitize_dict v).isBytes = false := by
  cases v with
  | dict kvs => rfl
  | list xs => rfl
  | bytes b => simp [PyVal.isBytes] at h
  | scalar i => rfl

mutual

theorem sanitize_dict_clean : ∀ v : PyVal, noBytesValuedField (sanitize_dict v) = true
  | PyVal.dict kvs => sanitizeEntries_clean kvs
  | PyVal.list xs => sanitizeElems_clean xs
  | PyVal.bytes _ => rfl
  | PyVal.scalar _ => rfl

theorem sanitizeEntries_clean : ∀ kvs : List (String × PyVal),
    entriesClean (sanitizeEntries kvs) = true
  | [] => rfl
  | (k, v) :: rest => by
    by_cases hv : v.isBytes
    · show entriesClean (if v.isBytes then sanitizeEntries rest
          else (k, sanitize_dict v) :: sanitizeEntries rest) = true
      rw [if_pos hv]
      exact sanitizeEntries_clean rest
    · show entriesClean (if v.isBytes then sanitizeEntries rest
          else (k, sanitize_dict v) :: sanitizeEntries rest) = true
      rw [if_neg hv]
      show (!(sanitize_dict v).isBytes && noBytesValuedField (sanitize_dict v)
          && entriesClean (sanitizeEntries rest)) = true
      rw [isBytes_sanitize_dict v (by simpa using hv), sanitize_dict_clean v,
        sanitizeEntries_clean rest]
      rfl

theorem sanitizeElems_clean : ∀ xs : List PyVal, elemsClean (sanitizeElems xs) = true
  | [] => rfl
  | v :: rest => by
    show (noBytesValuedField (sanitize_dict v) && elemsClean (sanitizeElems rest)) = true
    rw [sanitize_dict_clean v, sanitizeElems_clean rest]
    rfl

end

/-- C4 (counterexample): a binary blob that is an element of a sequence is
NOT removed — `sanitize_dict` maps itself over list elements and its base
case returns a bare `bytes` value unchanged, so the input tree
`[b'\x00']` comes back intact instead of having the blob removed. -/
theorem C4_normalizer_counterexample :
    sanitize_dict (PyVal.list [PyVal.bytes [0]]) = PyVal.list [PyVal.bytes [0]]
      ∧ sanitize_dict (PyVal.list [PyVal.bytes [0]]) ≠ PyVal.list [] := by
  refine ⟨rfl, fun h => ?_⟩
  have h2 : PyVal.list [PyVal.bytes [0]] = PyVal.list [] := by
    calc PyVal.list [PyVal.bytes [0]]
        = sanitize_dict (PyVal.list [PyVal.bytes [0]]) := rfl
      _ = PyVal.list [] := h
  simp at h2

/-- C4 (amended): the Record Normalizer returns a structurally identical
tree in which every binary-blob-valued MAP FIELD at any depth has been
removed and key order is preserved (the dict branch is exactly an in-order
filter of blob-valued entries followed by recursive normalization);
sequences are normalized elementwise with blob ELEMENTS passed through
unchanged, and any input that is not a map or sequence — including a bare
blob — is passed through unchanged without error. -/
theorem C4_normalizer_amended :
    (∀ kvs : List (String × PyVal),
        sanitize_dict (PyVal.dict kvs)
          = PyVal.dict
              ((kvs.filter fun kv => !kv.2.isBytes).map fun kv => (kv.1, sanitize_dict kv.2)))
      ∧ (∀ xs : List PyVal, sanitize_dict (PyVal.list xs) = PyVal.list (xs.map sanitize_dict))
      ∧ (∀ b : List Nat, sanitize_dict (PyVal.bytes b) = PyVal.bytes b)
      ∧ (∀ i : Int, sanitize_dict (PyVal.scalar i) = PyVal.scalar i)
      ∧ (∀ v : PyVal, noBytesValuedField (sanitize_dict v) = true) :=
  ⟨fun kvs => congrArg PyVal.dict (sanitizeEntries_eq_filter_map kvs),
   fun xs => congrArg PyVal.list (sanitizeElems_eq_map xs),
   fun _ => rfl, fun _ => rfl, sanitize_dict_clean⟩

/-! ## The idempotent loader: claims C2, C6, C7, C3 -/

theorem hasKey_insertRawRow_mono (t : List RawRow) (v : Int × String × Msg) (i : Int)
    (c : String) (h : hasKey t i c = true) : hasKey (insertRawRow t v) i c = true := by
  rw [insertRawRow]
  split
  · exact h
  · rw [hasKey, List.any_append]
    rw [hasKey] at h
    simp [h]

theorem hasKey_insertRawRow_self (t : List RawRow) (i : Int) (c : String) (m : Msg) :
    hasKey (insertRawRow t (i, c, m)) i c = true := by
  rw [insertRawRow]
  split
  · assumption
  · rw [hasKey, List.any_append]
    simp [hasKey]

theorem insertRawRow_of_hasKey (t : List RawRow) (v : Int × String × Msg)
    (h : hasKey t v.1 v.2.1 = true) : insertRawRow t v = t := by
  rw [insertRawRow, if_pos h]

theorem foldl_insertRawRow_hasKey_mono :
    ∀ (vs : List (Int × String × Msg)) (t : List RawRow) (i : Int) (c : String),
      hasKey t i c = true → hasKey (vs.foldl insertRawRow t) i c = true
  | [], _, _, _, h => h
  | v :: vs, t, i, c, h =>
    foldl_insertRawRow_hasKey_mono vs (insertRawRow t v) i c
      (hasKey_insertRawRow_mono t v i c h)

theorem foldl_insertRawRow_hasKey_mem :
    ∀ (vs : List (Int × String × Msg)) (t : List RawRow) (v : Int × String × Msg),
      v ∈ vs → hasKey (vs.foldl insertRawRow t) v.1 v.2.1 = true := by
  intro vs
  induction vs with
  | nil => intro t v h; cases h
  | cons w vs ih =>
    intro t v h
    rcases List.mem_cons.mp h with rfl | h
    · exact foldl_insertRawRow_hasKey_mono vs (insertRawRow t v) v.1 v.2.1
        (by obtain ⟨i, c, m⟩ := v; exact hasKey_insertRawRow_self t i c m)
    · exact ih (insertRawRow t w) v h

theorem foldl_insertRawRow_fixed :
    ∀ (vs : List (Int × String × Msg)) (t : List RawRow),
      (∀ v ∈ vs, hasKey t v.1 v.2.1 = true) → vs.foldl insertRawRow t = t := by
  intro vs
  induction vs with
  | nil => intro t _; rfl
  | cons w vs ih =>
    intro t h
    rw [List.foldl_cons, insertRawRow_of_hasKey t w (h w (by simp))]
    exact ih t fun v hv => h v (by simp [hv])

/-- C2: applying the Loader's table-level effect to the same BatchUnit twice
yields the same durable-storage rows (count and content) as applying it
once — after the first application every well-formed record's natural key is
present, so on the second run every insert hits the
ON CONFLICT (message_id, channel_username) DO NOTHING path and the table is
unchanged. -/
theorem C2_loader_idempotent (table : List RawRow) (msgs : List Msg) :
    loadFile (loadFile table msgs) msgs = loadFile table msgs := by
  rw [loadFile, loadFile]
  exact foldl_insertRawRow_fixed (prepValues msgs) _
    fun v hv => foldl_insertRawRow_hasKey_mem (prepValues msgs) table v hv

/-- C6: loading two records that share the natural key (message id, channel
handle) but carry different payloads — in one run or in two successive
runs — leaves exactly one stored row for that key, whose payload is the
first-inserted record's; the conflicting insert is a silent no-op. -/
theorem C6_loader_first_write_wins (table : List RawRow) (i : Int) (c : String)
    (p1 p2 : String) (hfresh : hasKey table i c = false) (hne : p1 ≠ p2) :
    loadFile table [⟨some i, some c, p1⟩, ⟨some i, some c, p2⟩]
        = table ++ [⟨i, c, ⟨some i, some c, p1⟩⟩]
      ∧ loadFile (loadFile table [⟨some i, some c, p1⟩]) [⟨some i, some c, p2⟩]
        = table ++ [⟨i, c, ⟨some i, some c, p1⟩⟩]
      ∧ (table ++ [(⟨i, c, ⟨some i, some c, p1⟩⟩ : RawRow)]).filter
          (fun r => r.message_id == i && r.channel_username == c)
        = [(⟨i, c, ⟨some i, some c, p1⟩⟩ : RawRow)] := by
  have hprep1 : prepValues [⟨some i, some c, p1⟩] = [(i, c, ⟨some i, some c, p1⟩)] := rfl
  have hprep2 : prepValues [⟨some i, some c, p2⟩] = [(i, c, ⟨some i, some c, p2⟩)] := rfl
  have hprep12 : prepValues [⟨some i, some c, p1⟩, ⟨some i, some c, p2⟩]
      = [(i, c, ⟨some i, some c, p1⟩), (i, c, ⟨some i, some c, p2⟩)] := rfl
  have hins1 : insertRawRow table (i, c, ⟨some i, some c, p1⟩)
      = table ++ [⟨i, c, ⟨some i, some c, p1⟩⟩] := by
    rw [insertRawRow, if_neg (by simp [hfresh])]
  have hkey : hasKey (table ++ [⟨i, c, ⟨some i, some c, p1⟩⟩]) i c = true := by
    rw [hasKey, List.any_append]
    simp [hasKey]
  have hins2 : insertRawRow (table ++ [⟨i, c, ⟨some i, some c, p1⟩⟩])
      (i, c, ⟨some i, some c, p2⟩) = table ++ [⟨i, c, ⟨some i, some c, p1⟩⟩] :=
    insertRawRow_of_hasKey _ _ hkey
  refine ⟨?_, ?_, ?_⟩
  · rw [loadFile, hprep12, List.foldl_cons, List.foldl_cons, List.foldl_nil, hins1, hins2]
  · rw [loadFile, loadFile, hprep1, hprep2, List.foldl_cons, List.foldl_nil,
      List.foldl_cons, List.foldl_nil, hins1, hins2]
  · rw [List.filter_append]
    have ht : table.filter (fun r => r.message_id == i && r.channel_username == c) = [] := by
      rw [List.filter_eq_nil_iff]
      intro r hr hkr
      rw [hasKey] at hfresh
      have hany : table.any (fun r => r.message_id == i && r.channel_username == c) = true :=
        List.any_eq_true.mpr ⟨r, hr, hkr⟩
      rw [hfresh] at hany
      cases hany
    rw [ht]
    simp

/-- C6 (witness): first-write-wins at the concrete key (5, `chan`) with
payloads `a` then `b` over an empty table. -/
theorem C6_loader_first_write_wins_witness :
    hasKey [] 5 "chan" = false
      ∧ ("a" : String) ≠ "b"
      ∧ (loadFile [] [⟨some 5, some "chan", "a"⟩, ⟨some 5, some "chan", "b"⟩]
            = [] ++ [⟨5, "chan", ⟨some 5, some "chan", "a"⟩⟩]
          ∧ loadFile (loadFile [] [⟨some 5, some "chan", "a"⟩]) [⟨some 5, some "chan", "b"⟩]
            = [] ++ [⟨5, "chan", ⟨some 5, some "chan", "a"⟩⟩]
          ∧ ([] ++ [(⟨5, "chan", ⟨some 5, some "chan", "a"⟩⟩ : RawRow)]).filter
              (fun r => r.message_id == 5 && r.channel_username == "chan")
            = [(⟨5, "chan", ⟨some 5, some "chan", "a"⟩⟩ : RawRow)]) :=
  ⟨by decide, by decide, C6_loader_first_write_wins [] 5 "chan" "a" "b" rfl (by decide)⟩

theorem prepValues_filter (msgs : List Msg) :
    prepValues (msgs.filter fun m => m.id.isSome && m.channel_username.isSome)
      = prepValues msgs := by
  induction msgs with
  | nil => rfl
  | cons m msgs ih =>
    rcases hid : m.id with _ | i <;> rcases hch : m.channel_username with _ | c <;>
      simp [prepValues, List.filter_cons, hid, hch] at ih ⊢ <;>
      simpa [prepValues] using ih

/-- C7: the Loader skips exactly the records lacking a message identifier or
channel handle — loading a BatchUnit has the same storage effect as loading
its well-formed sublist, so a malformed record never aborts the batch — and
after the load every well-formed record's natural key is present in the
table (all remaining records were inserted or were already present). -/
theorem C7_loader_skips_malformed (table : List RawRow) (msgs : List Msg) :
    loadFile table msgs
        = loadFile table (msgs.filter fun m => m.id.isSome && m.channel_username.isSome)
      ∧ ∀ v ∈ prepValues msgs, hasKey (loadFile table msgs) v.1 v.2.1 = true := by
  constructor
  · rw [loadFile, loadFile, prepValues_filter]
  · intro v hv
    exact foldl_insertRawRow_hasKey_mem (prepValues msgs) table v hv

/-- C3 (code evaluation): run the Loader over two BatchUnits where the
first fails mid-batch — record 1 inserts fine, then the poisoned record 99
raises a database error — and the second BatchUnit is well-formed.  The
per-file `except` handler only logs and never rolls the transaction back,
so the connection stays in the aborted state: the second BatchUnit's insert
raises `InFailedSqlTransaction` immediately, no commit is ever reached, and
the final table is EMPTY — the failed batch was indeed not partially
persisted, but the failure destroyed the loading of every subsequent
BatchUnit in the run, contradicting the claim.  Loading the second
BatchUnit on its own (second conjunct) shows its row would otherwise have
been stored. -/
theorem C3_loader_poisoned_batch_poisons_run :
    load_json_to_postgres raisesOn99 [[msgA, msgBoom], [msgB]] = []
      ∧ load_json_to_postgres raisesOn99 [[msgB]] = [⟨2, "chan", msgB⟩] := by
  constructor
  · rfl
  · rfl
/-! ## The asset-correlation enricher: claim C8 -/

theorem assetProcessed_insertDetRow_mono (t : List DetRow) (r : DetRow) (mid : Nat)
    (f : List Char) (h : assetProcessed t mid f = true) :
    assetProcessed (insertDetRow t r) mid f = true := by
  rw [insertDetRow]
  split
  · exact h
  · rw [assetProcessed, List.any_append]
    rw [assetProcessed] at h
    simp [h]

theorem assetProcessed_foldl_mono (mid : Nat) (f : List Char) :
    ∀ (fds : List Finding) (g : Finding → DetRow) (t : List DetRow),
      assetProcessed t mid f = true →
      assetProcessed (fds.foldl (fun tb fd => insertDetRow tb (g fd)) t) mid f = true
  | [], _, _, h => h
  | fd :: fds, g, t, h =>
    assetProcessed_foldl_mono mid f fds g (insertDetRow t (g fd))
      (assetProcessed_insertDetRow_mono t (g fd) mid f h)

theorem assetProcessed_insertDetRow_self (t : List DetRow) (mid : Nat) (f : List Char)
    (cl : String) (conf : Int) (bb : List Int) :
    assetProcessed (insertDetRow t ⟨mid, f, cl, conf, bb⟩) mid f = true := by
  rw [insertDetRow]
  split
  · rename_i hc
    rw [detConflict, List.any_eq_true] at hc
    obtain ⟨x, hx, hxe⟩ := hc
    rw [assetProcessed, List.any_eq_true]
    refine ⟨x, hx, ?_⟩
    simp only [Bool.and_eq_true] at hxe
    simp [hxe.1.1.1, hxe.1.1.2]
  · rw [assetProcessed, List.any_append]
    simp [assetProcessed]

theorem assetProcessed_processImage (model : List Char → List Finding)
    (t : List DetRow) (f : List Char) (mid : Nat)
    (hmid : extract_message_id f = some mid) (hmodel : model f ≠ []) :
    assetProcessed (processImage model t f) mid f = true := by
  simp only [processImage, hmid]
  split
  · assumption
  · rcases hm : model f with _ | ⟨fd, fds⟩
    · exact absurd hm hmodel
    · rw [List.foldl_cons]
      exact assetProcessed_foldl_mono mid f fds _ _
        (assetProcessed_insertDetRow_self t mid f fd.class_name fd.confidence fd.bbox)

theorem assetProcessed_processImage_mono (model : List Char → List Finding)
    (t : List DetRow) (g : List Char) (mid : Nat) (f : List Char)
    (h : assetProcessed t mid f = true) :
    assetProcessed (processImage model t g) mid f = true := by
  rcases hg : extract_message_id g with _ | mid2
  · simp only [processImage, hg]
    exact h
  · simp only [processImage, hg]
    split
    · exact h
    · exact assetProcessed_foldl_mono mid f (model g) _ t h

theorem assetProcessed_run_mono (model : List Char → List Finding) :
    ∀ (files : List (List Char)) (t : List DetRow) (mid : Nat) (f : List Char),
      assetProcessed t mid f = true →
      assetProcessed (files.foldl (processImage model) t) mid f = true
  | [], _, _, _, h => h
  | g :: files, t, mid, f, h =>
    assetProcessed_run_mono model files (processImage model t g) mid f
      (assetProcessed_processImage_mono model t g mid f h)

theorem assetProcessed_run (model : List Char → List Finding) :
    ∀ (files : List (List Char)) (t : List DetRow) (f : List Char) (mid : Nat),
      f ∈ files → extract_message_id f = some mid → model f ≠ [] →
      assetProcessed (run_yolo_enrichment model t files) mid f = true := by
  intro files
  induction files with
  | nil => intro t f mid h; cases h
  | cons g files ih =>
    intro t f mid h hmid hmodel
    rw [run_yolo_enrichment, List.foldl_cons]
    rcases List.mem_cons.mp h with rfl | h
    · exact assetProcessed_run_mono model files (processImage model t f) mid f
        (assetProcessed_processImage model t f mid hmid hmodel)
    · exact ih (processImage model t g) f mid h hmid hmodel

theorem processImage_fixed (model : List Char → List Finding) (t : List DetRow)
    (f : List Char)
    (h : ∀ mid, extract_message_id f = some mid → model f ≠ [] →
      assetProcessed t mid f = true) :
    processImage model t f = t := by
  rcases hmid : extract_message_id f with _ | mid
  · simp only [processImage, hmid]
  · simp only [processImage, hmid]
    split
    · rfl
    · rename_i hg
      rcases hm : model f with _ | ⟨fd, fds⟩
      · rfl
      · exact absurd (h mid hmid (by simp [hm])) hg

/-- C8: re-running the Enricher over a set of media assets that have all
already been fully processed inserts zero new Detection rows — after any
complete run, every asset that yielded at least one detection is skipped by
the (message id, filename) guard before model invocation, an asset whose
filename fails to decode is skipped again, and an asset whose model output
was empty re-derives zero detections — so the second run returns the
detection table unchanged. -/
theorem C8_enricher_idempotent (model : List Char → List Finding)
    (table : List DetRow) (files : List (List Char)) :
    run_yolo_enrichment model (run_yolo_enrichment model table files) files
      = run_yolo_enrichment model table files := by
  have hfix : ∀ f ∈ files,
      processImage model (run_yolo_enrichment model table files) f
        = run_yolo_enrichment model table files := by
    intro f hf
    exact processImage_fixed model _ f
      (fun mid hmid hmodel => assetProcessed_run model files table f mid hf hmid hmodel)
  rw [run_yolo_enrichment]
  generalize hrun : run_yolo_enrichment model table files = T at hfix
  clear hrun
  induction files with
  | nil => rfl
  | cons g files ih =>
    rw [List.foldl_cons, hfix g (by simp)]
    exact ih fun f hf => hfix f (by simp [hf])
/-! ## The channel-partitioned writer: claim C10 -/

theorem data_lake_path_inj (today channel today2 channel2 : String)
    (h : data_lake_path today2 channel2 = data_lake_path today channel) :
    today2 = today ∧ channel2 = channel := by
  simp only [data_lake_path, List.cons.injEq, and_true] at h
  exact ⟨h.2.2.2.1, h.2.2.2.2.1⟩

theorem find?_filter_of_imp {α : Type} (p q : α → Bool) (l : List α)
    (h : ∀ e, p e = true → q e = true) : (l.filter q).find? p = l.find? p := by
  induction l with
  | nil => rfl
  | cons e l ih =>
    rw [List.filter_cons]
    by_cases hp : p e = true
    · rw [if_pos (h e hp), List.find?_cons_of_pos _ hp, List.find?_cons_of_pos _ hp]
    · by_cases hq : q e = true
      · rw [if_pos hq, List.find?_cons_of_neg _ hp, List.find?_cons_of_neg _ hp, ih]
      · rw [if_neg hq, ih, List.find?_cons_of_neg _ hp]

theorem save_channel_data_of_ne_nil (fs : List (List String × List Msg))
    (data : List Msg) (today channel : String) (h : data ≠ []) :
    save_channel_data fs data today channel
      = fsWrite fs (data_lake_path today channel) data := by
  rw [save_channel_data]
  cases data
  · exact absurd rfl h
  · rfl

/-- C10: the Writer's output path depends only on (run-date, channel handle)
and the file is opened truncating, so a second non-empty write for the same
(run-date, channel) replaces the whole previously written BatchUnit — the
path afterwards holds exactly the second batch, every filesystem entry at
that path carries the second batch (nothing of the first write remains) —
while the file of any other (run-date, channel) pair is untouched. -/
theorem C10_writer_truncating_overwrite (fs : List (List String × List Msg))
    (data1 data2 : List Msg) (today channel : String)
    (h1 : data1 ≠ []) (h2 : data2 ≠ []) :
    fsRead (save_channel_data (save_channel_data fs data1 today channel) data2 today channel)
        (data_lake_path today channel) = some data2
      ∧ (∀ e ∈ save_channel_data (save_channel_data fs data1 today channel) data2 today channel,
          e.1 = data_lake_path today channel → e.2 = data2)
      ∧ ∀ today2 channel2, ¬(today2 = today ∧ channel2 = channel) →
          fsRead (save_channel_data (save_channel_data fs data1 today channel) data2
                today channel)
              (data_lake_path today2 channel2)
            = fsRead (save_channel_data fs data1 today channel)
                (data_lake_path today2 channel2) := by
  rw [save_channel_data_of_ne_nil _ data2 today channel h2]
  refine ⟨?_, ?_, ?_⟩
  · rw [fsWrite, fsRead, List.find?_cons_of_pos _ (by simp)]
    rfl
  · intro e he hpath
    rw [fsWrite] at he
    rcases List.mem_cons.mp he with rfl | he
    · rfl
    · have hkeep := List.of_mem_filter he
      rw [Bool.not_eq_eq_eq_not, Bool.not_true, beq_eq_false_iff_ne] at hkeep
      exact absurd hpath hkeep
  · intro today2 channel2 hne
    have hpne : data_lake_path today2 channel2 ≠ data_lake_path today channel :=
      fun hp => hne (data_lake_path_inj today channel today2 channel2 hp)
    rw [fsWrite, fsRead,
      List.find?_cons_of_neg _ (by simpa using fun hp => hpne hp.symm),
      fsRead, find?_filter_of_imp]
    intro e hp
    rw [beq_iff_eq] at hp
    simp [hp, hpne]

/-- C10 (witness): two successive writes for the same (run-date, channel)
over an empty filesystem; reading the path back yields the second batch. -/
theorem C10_writer_truncating_overwrite_witness :
    ([⟨some 1, some "chan", "a"⟩] : List Msg) ≠ []
      ∧ ([⟨some 2, some "chan", "b"⟩] : List Msg) ≠ []
      ∧ fsRead (save_channel_data
            (save_channel_data [] [⟨some 1, some "chan", "a"⟩] "2024-01-01" "chan")
            [⟨some 2, some "chan", "b"⟩] "2024-01-01" "chan")
          (data_lake_path "2024-01-01" "chan") = some [⟨some 2, some "chan", "b"⟩] :=
  ⟨by decide, by decide,
    (C10_writer_truncating_overwrite [] [⟨some 1, some "chan", "a"⟩]
      [⟨some 2, some "chan", "b"⟩] "2024-01-01" "chan" (by decide) (by decide)).1⟩

/-! ## The bounded history crawler: claims C5 and C9 -/

theorem scrapeLoopTrace_page_empty (history : List TMessage) (limit : Nat) (start : Int)
    (fuel offset : Nat) (acc : List TMessage) (curs : List Nat)
    (h : getHistoryRequest history offset limit = []) :
    scrapeLoopTrace history limit start (fuel + 1) offset acc curs
      = (acc, curs ++ [offset]) := by
  simp only [scrapeLoopTrace, h]

theorem scrapeLoopTrace_page_cons (history : List TMessage) (limit : Nat) (start : Int)
    (fuel offset : Nat) (acc : List TMessage) (curs : List Nat) (m0 : TMessage)
    (ms : List TMessage)
    (h : getHistoryRequest history offset limit = m0 :: ms) :
    scrapeLoopTrace history limit start (fuel + 1) offset acc curs
      = (if decide (((m0 :: ms).takeWhile fun m => !decide (m.date < start)).length
              < (m0 :: ms).length) || decide ((m0 :: ms).length < limit)
         then (acc ++ ((m0 :: ms).takeWhile fun m => !decide (m.date < start)),
               curs ++ [offset])
         else scrapeLoopTrace history limit start fuel
                ((m0 :: ms).getLast (List.cons_ne_nil m0 ms)).id
                (acc ++ ((m0 :: ms).takeWhile fun m => !decide (m.date < start)))
                (curs ++ [offset])) := by
  simp only [scrapeLoopTrace, h]

theorem getLast_take_eq_get (rem : List TMessage) (limit : Nat)
    (hne : rem.take limit ≠ []) (hle : limit ≤ rem.length) (hlt : limit - 1 < rem.length) :
    (rem.take limit).getLast hne = rem.get ⟨limit - 1, hlt⟩ := by
  have hlim : 0 < limit := by
    rcases Nat.eq_zero_or_pos limit with h0 | h
    · subst h0
      simp at hne
    · exact h
  have hlen : (rem.take limit).length = limit := by
    rw [List.length_take]
    omega
  rw [List.getLast_eq_getElem, List.get_eq_getElem]
  have hidx : (rem.take limit).length - 1 < (rem.take limit).length := by omega
  have h1 : (rem.take limit).length - 1 = limit - 1 := by omega
  rw [List.getElem_take]
  congr 1

theorem sorted_filter_lt_eq_drop (pre rem : List TMessage) (limit : Nat)
    (hsort : List.Pairwise (fun a b => b.id < a.id) (pre ++ rem))
    (hle : limit ≤ rem.length) (hlim : 0 < limit) (hlt : limit - 1 < rem.length) :
    (pre ++ rem).filter (fun m => decide (m.id < (rem.get ⟨limit - 1, hlt⟩).id))
      = rem.drop limit := by
  obtain ⟨hpre, hrem, hcross⟩ := List.pairwise_append.mp hsort
  have hremElem := List.pairwise_iff_getElem.mp hrem
  have hc_mem : rem.get ⟨limit - 1, hlt⟩ ∈ rem := List.get_mem rem (limit - 1) hlt
  set c := (rem.get ⟨limit - 1, hlt⟩).id with hc
  have hc2 : c = (rem[limit - 1]).id := hc
  rw [List.filter_append]
  have h1 : pre.filter (fun m => decide (m.id < c)) = [] := by
    rw [List.filter_eq_nil_iff]
    intro a ha
    have hgt := hcross a ha _ hc_mem
    simp only [decide_eq_true_eq]
    omega
  have h2 : rem.filter (fun m => decide (m.id < c)) = rem.drop limit := by
    conv_lhs => rw [← List.take_append_drop limit rem]
    rw [List.filter_append]
    have htake : (rem.take limit).filter (fun m => decide (m.id < c)) = [] := by
      rw [List.filter_eq_nil_iff]
      intro a ha
      obtain ⟨i, hi, hai⟩ := List.mem_iff_getElem.mp ha
      have hilim : i < limit := by
        rw [List.length_take] at hi
        omega
      have hirem : i < rem.length := by omega
      have hai2 : a = rem[i] := by
        rw [← hai]
        exact List.getElem_take rem
      simp only [decide_eq_true_eq]
      rw [hai2, hc2]
      rcases Nat.lt_or_ge i (limit - 1) with hcase | hcase
      · have hpw := hremElem i (limit - 1) hirem hlt hcase
        omega
      · have hieq : i = limit - 1 := by omega
        subst hieq
        exact fun habs => absurd habs (Nat.lt_irrefl _)
    have hdrop : (rem.drop limit).filter (fun m => decide (m.id < c)) = rem.drop limit := by
      rw [List.filter_eq_self]
      intro a ha
      obtain ⟨j, hj, haj⟩ := List.mem_iff_getElem.mp ha
      have hjrem : limit + j < rem.length := by
        rw [List.length_drop] at hj
        omega
      have haj2 : a = rem[limit + j] := by
        rw [← haj]
        exact List.getElem_drop rem
      have hpw := hremElem (limit - 1) (limit + j) hlt hjrem (by omega)
      simp only [decide_eq_true_eq]
      rw [haj2, hc2]
      omega
    rw [htake, hdrop]
    rfl
  rw [h1, h2]
  rfl

theorem scrapeLoopTrace_collected (history : List TMessage) (limit : Nat) (start : Int)
    (hsort : List.Pairwise (fun a b => b.id < a.id) history)
    (hpos : ∀ m ∈ history, 0 < m.id)
    (hlim : 0 < limit) :
    ∀ (fuel : Nat) (rem : List TMessage) (offset : Nat) (acc : List TMessage)
      (curs : List Nat),
      rem.length < fuel →
      (∃ pre, history = pre ++ rem) →
      history.filter (fun m => offset == 0 || decide (m.id < offset)) = rem →
      (scrapeLoopTrace history limit start fuel offset acc curs).1
        = acc ++ rem.takeWhile (fun m => !decide (m.date < start)) := by
  intro fuel
  induction fuel with
  | zero =>
    intro rem offset acc curs hfuel hsuf hfilter
    exact absurd hfuel (by omega)
  | succ fuel ih =>
    intro rem offset acc curs hfuel hsuf hfilter
    obtain ⟨pre, hpre⟩ := hsuf
    have hmsgs : getHistoryRequest history offset limit = rem.take limit := by
      rw [getHistoryRequest, hfilter]
    rcases hpage : rem.take limit with _ | ⟨m0, ms⟩
    · have hrem : rem = [] := by
        rcases List.take_eq_nil_iff.mp hpage with h0 | h
        · omega
        · exact h
      rw [scrapeLoopTrace_page_empty history limit start fuel offset acc curs
        (by rw [hmsgs, hpage]), hrem]
      simp
    · rw [scrapeLoopTrace_page_cons history limit start fuel offset acc curs m0 ms
        (by rw [hmsgs, hpage])]
      have hlenpage : (m0 :: ms).length = min limit rem.length := by
        rw [← hpage, List.length_take]
      have hremsplit : rem = (m0 :: ms) ++ rem.drop limit := by
        conv_lhs => rw [← List.take_append_drop limit rem]
        rw [hpage]
      have htw : rem.takeWhile (fun m => !decide (m.date < start))
          = if (((m0 :: ms).takeWhile (fun m => !decide (m.date < start))).length
                = (m0 :: ms).length)
            then (m0 :: ms) ++ (rem.drop limit).takeWhile (fun m => !decide (m.date < start))
            else (m0 :: ms).takeWhile (fun m => !decide (m.date < start)) := by
        conv_lhs => rw [hremsplit]
        exact List.takeWhile_append
      by_cases hstop : ((m0 :: ms).takeWhile (fun m => !decide (m.date < start))).length
          < (m0 :: ms).length
      · rw [if_pos (by rw [decide_eq_true hstop]; rfl)]
        rw [htw, if_neg (by omega)]
      · have hretall : (m0 :: ms).takeWhile (fun m => !decide (m.date < start))
            = m0 :: ms := by
          refine List.Sublist.eq_of_length (List.takeWhile_sublist _) ?_
          have hle2 := (List.takeWhile_sublist
            (l := m0 :: ms) (fun m => !decide (m.date < start))).length_le
          omega
        by_cases hshort : (m0 :: ms).length < limit
        · rw [if_pos (by rw [decide_eq_true hshort]; exact Bool.or_true _)]
          have hdropnil : rem.drop limit = [] := by
            refine List.drop_eq_nil_of_le ?_
            omega
          rw [htw, if_pos (by rw [hretall]), hretall, hdropnil]
          simp
        · rw [if_neg (by rw [decide_eq_false hstop, decide_eq_false hshort]; simp)]
          have hlen : (m0 :: ms).length = limit := by omega
          have hle : limit ≤ rem.length := by
            rw [hlenpage] at hlen
            omega
          have hlt : limit - 1 < rem.length := by omega
          have hne : rem.take limit ≠ [] := by
            rw [hpage]
            simp
          have hoff : ((m0 :: ms).getLast (List.cons_ne_nil m0 ms)).id
              = (rem.get ⟨limit - 1, hlt⟩).id := by
            have h1 : ((m0 :: ms) : List TMessage).getLast? = (rem.take limit).getLast? := by
              rw [hpage]
            rw [List.getLast?_eq_getLast _ (List.cons_ne_nil m0 ms),
              List.getLast?_eq_getLast _ hne] at h1
            rw [Option.some.inj h1, getLast_take_eq_get rem limit hne hle hlt]
          rw [hoff]
          have hfuel2 : (rem.drop limit).length < fuel := by
            rw [List.length_drop]
            omega
          have hsuf2 : ∃ pre2, history = pre2 ++ rem.drop limit := by
            refine ⟨pre ++ (m0 :: ms), ?_⟩
            rw [hpre]
            conv_lhs => rw [hremsplit]
            rw [List.append_assoc]
          have hmem : rem.get ⟨limit - 1, hlt⟩ ∈ history := by
            rw [hpre]
            exact List.mem_append.mpr (Or.inr (List.get_mem rem _ _))
          have hne0 : ((rem.get ⟨limit - 1, hlt⟩).id == 0) = false := by
            have hposc : 0 < (rem.get ⟨limit - 1, hlt⟩).id := hpos _ hmem
            simp only [beq_eq_false_iff_ne]
            omega
          have hfilter2 : history.filter
              (fun m => (rem.get ⟨limit - 1, hlt⟩).id == 0
                || decide (m.id < (rem.get ⟨limit - 1, hlt⟩).id)) = rem.drop limit := by
            rw [List.filter_congr (fun x _ => by rw [hne0, Bool.false_or])]
            rw [hpre]
            exact sorted_filter_lt_eq_drop pre rem limit (hpre ▸ hsort) hle hlim hlt
          rw [ih (rem.drop limit) (rem.get ⟨limit - 1, hlt⟩).id
            (acc ++ ((m0 :: ms).takeWhile (fun m => !decide (m.date < start))))
            (curs ++ [offset]) hfuel2 hsuf2 hfilter2]
          rw [htw, if_pos (by rw [hretall]), hretall, List.append_assoc]

theorem sorted_filter_eq_takeWhile (start : Int) :
    ∀ l : List TMessage, List.Pairwise (fun a b => b.date < a.date) l →
      l.filter (fun m => !decide (m.date < start))
        = l.takeWhile (fun m => !decide (m.date < start)) := by
  intro l
  induction l with
  | nil => intro _; rfl
  | cons a tl ih =>
    intro hp
    rw [List.pairwise_cons] at hp
    rw [List.filter_cons, List.takeWhile_cons]
    by_cases ha : a.date < start
    · have hfa : (!decide (a.date < start)) = false := by simp [ha]
      rw [hfa]
      simp only [Bool.false_eq_true, if_false]
      rw [List.filter_eq_nil_iff]
      intro b hb
      have hba := hp.1 b hb
      intro hcon
      simp only [Bool.not_eq_true', decide_eq_false_iff_not] at hcon
      omega
    · have hfa : (!decide (a.date < start)) = true := by simp [ha]
      rw [hfa]
      simp only [if_true]
      rw [ih hp.2]

/-- C5: over a channel history with strictly decreasing identifiers and
strictly decreasing timestamps, a crawl with page size `limit > 0` at time
`now` with lookback window `lookback` retains exactly the prefix of items
with timestamp at or after `now - lookback` (the `takeWhile` form: every
item at or past the first one older than the boundary is discarded, even
when the boundary falls mid-page) — equivalently, exactly the set of items
inside the window (the `filter` form). -/
theorem C5_crawl_window_boundary (history : List TMessage) (limit : Nat)
    (now lookback : Int)
    (hid : List.Pairwise (fun a b => b.id < a.id) history)
    (hdate : List.Pairwise (fun a b => b.date < a.date) history)
    (hpos : ∀ m ∈ history, 0 < m.id)
    (hlim : 0 < limit) :
    scrape_channel history limit now lookback
        = history.takeWhile (fun m => !decide (m.date < now - lookback))
      ∧ scrape_channel history limit now lookback
        = history.filter (fun m => !decide (m.date < now - lookback)) := by
  have h1 : scrape_channel history limit now lookback
      = history.takeWhile (fun m => !decide (m.date < now - lookback)) := by
    rw [scrape_channel,
      scrapeLoopTrace_collected history limit (now - lookback) hid hpos hlim
        (history.length + 1) history 0 [] [] (by omega) ⟨[], rfl⟩
        (by
          rw [List.filter_eq_self]
          intro a _
          rfl)]
    rfl
  exact ⟨h1, h1.trans (sorted_filter_eq_takeWhile (now - lookback) history hdate).symm⟩

/-- C5 (witness): three messages with ids 30, 20, 10 and dates 100, 90, 10,
page size 2, now 100, lookback 20 — the boundary falls inside the second
page and the crawl retains exactly the two items inside the window. -/
theorem C5_crawl_window_boundary_witness :
    List.Pairwise (fun a b => b.id < a.id)
        [⟨30, 100⟩, ⟨20, 90⟩, (⟨10, 10⟩ : TMessage)]
      ∧ List.Pairwise (fun a b => b.date < a.date)
          [⟨30, 100⟩, ⟨20, 90⟩, (⟨10, 10⟩ : TMessage)]
      ∧ (∀ m ∈ [⟨30, 100⟩, ⟨20, 90⟩, (⟨10, 10⟩ : TMessage)], 0 < m.id)
      ∧ (0 : Nat) < 2
      ∧ (scrape_channel [⟨30, 100⟩, ⟨20, 90⟩, (⟨10, 10⟩ : TMessage)] 2 100 20
            = List.takeWhile (fun m => !decide (m.date < 100 - 20))
                [⟨30, 100⟩, ⟨20, 90⟩, (⟨10, 10⟩ : TMessage)]
          ∧ scrape_channel [⟨30, 100⟩, ⟨20, 90⟩, (⟨10, 10⟩ : TMessage)] 2 100 20
            = List.filter (fun m => !decide (m.date < 100 - 20))
                [⟨30, 100⟩, ⟨20, 90⟩, (⟨10, 10⟩ : TMessage)]) :=
  ⟨by decide, by decide, by decide, by decide,
    C5_crawl_window_boundary [⟨30, 100⟩, ⟨20, 90⟩, (⟨10, 10⟩ : TMessage)] 2 100 20
      (by decide) (by decide) (by decide) (by decide)⟩

theorem scrapeLoopTrace_cursors (history : List TMessage) (limit : Nat) (start : Int)
    (hsort : List.Pairwise (fun a b => b.id < a.id) history)
    (hpos : ∀ m ∈ history, 0 < m.id)
    (hlim : 0 < limit) :
    ∀ (fuel : Nat) (rem : List TMessage) (offset : Nat) (acc : List TMessage)
      (curs : List Nat),
      rem.length < fuel →
      (∃ pre, history = pre ++ rem) →
      history.filter (fun m => offset == 0 || decide (m.id < offset)) = rem →
      ∃ extra emitted,
        scrapeLoopTrace history limit start fuel offset acc curs
            = (acc ++ emitted, curs ++ offset :: extra)
          ∧ emitted.Sublist rem
          ∧ List.Pairwise (fun a b => b < a) extra
          ∧ (∀ x ∈ extra, ∃ m, m ∈ rem ∧ x = m.id)
          ∧ (∀ x ∈ extra, offset = 0 ∨ x < offset) := by
  intro fuel
  induction fuel with
  | zero =>
    intro rem offset acc curs hfuel hsuf hfilter
    exact absurd hfuel (by omega)
  | succ fuel ih =>
    intro rem offset acc curs hfuel hsuf hfilter
    obtain ⟨pre, hpre⟩ := hsuf
    have hmsgs : getHistoryRequest history offset limit = rem.take limit := by
      rw [getHistoryRequest, hfilter]
    have hbnd : offset ≠ 0 → ∀ m ∈ rem, m.id < offset := by
      intro h0 m hm
      have hmf : m ∈ history.filter (fun m => offset == 0 || decide (m.id < offset)) :=
        hfilter ▸ hm
      have hp := List.of_mem_filter hmf
      rw [Bool.or_eq_true] at hp
      rcases hp with hp | hp
      · exact absurd (by simpa using hp) h0
      · simpa using hp
    rcases hpage : rem.take limit with _ | ⟨m0, ms⟩
    · refine ⟨[], [], ?_, List.nil_sublist rem, List.Pairwise.nil, by simp, by simp⟩
      rw [scrapeLoopTrace_page_empty history limit start fuel offset acc curs
        (by rw [hmsgs, hpage])]
      simp
    · rw [scrapeLoopTrace_page_cons history limit start fuel offset acc curs m0 ms
        (by rw [hmsgs, hpage])]
      have hlenpage : (m0 :: ms).length = min limit rem.length := by
        rw [← hpage, List.length_take]
      have hremsplit : rem = (m0 :: ms) ++ rem.drop limit := by
        conv_lhs => rw [← List.take_append_drop limit rem]
        rw [hpage]
      have hpagesub : (m0 :: ms).Sublist rem := by
        rw [← hpage]
        exact List.take_sublist limit rem
      have hretsub : ((m0 :: ms).takeWhile
          (fun m => !decide (m.date < start))).Sublist rem :=
        (List.takeWhile_sublist _).trans hpagesub
      by_cases hstop : ((m0 :: ms).takeWhile (fun m => !decide (m.date < start))).length
          < (m0 :: ms).length
      · rw [if_pos (by rw [decide_eq_true hstop]; rfl)]
        exact ⟨[], (m0 :: ms).takeWhile (fun m => !decide (m.date < start)),
          rfl, hretsub, List.Pairwise.nil, by simp, by simp⟩
      · by_cases hshort : (m0 :: ms).length < limit
        · rw [if_pos (by rw [decide_eq_true hshort]; exact Bool.or_true _)]
          exact ⟨[], (m0 :: ms).takeWhile (fun m => !decide (m.date < start)),
            rfl, hretsub, List.Pairwise.nil, by simp, by simp⟩
        · rw [if_neg (by rw [decide_eq_false hstop, decide_eq_false hshort]; simp)]
          have hretall : (m0 :: ms).takeWhile (fun m => !decide (m.date < start))
              = m0 :: ms := by
            refine List.Sublist.eq_of_length (List.takeWhile_sublist _) ?_
            have hle2 := (List.takeWhile_sublist
              (l := m0 :: ms) (fun m => !decide (m.date < start))).length_le
            omega
          have hlen : (m0 :: ms).length = limit := by omega
          have hle : limit ≤ rem.length := by
            rw [hlenpage] at hlen
            omega
          have hlt : limit - 1 < rem.length := by omega
          have hne : rem.take limit ≠ [] := by
            rw [hpage]
            simp
          have hoff : ((m0 :: ms).getLast (List.cons_ne_nil m0 ms)).id
              = (rem.get ⟨limit - 1, hlt⟩).id := by
            have h1 : ((m0 :: ms) : List TMessage).getLast? = (rem.take limit).getLast? := by
              rw [hpage]
            rw [List.getLast?_eq_getLast _ (List.cons_ne_nil m0 ms),
              List.getLast?_eq_getLast _ hne] at h1
            rw [Option.some.inj h1, getLast_take_eq_get rem limit hne hle hlt]
          rw [hoff]
          have hcmem : rem.get ⟨limit - 1, hlt⟩ ∈ rem := List.get_mem rem (limit - 1) hlt
          have hcpos : 0 < (rem.get ⟨limit - 1, hlt⟩).id := by
            refine hpos _ ?_
            rw [hpre]
            exact List.mem_append.mpr (Or.inr hcmem)
          have hne0 : ((rem.get ⟨limit - 1, hlt⟩).id == 0) = false := by
            simp only [beq_eq_false_iff_ne]
            omega
          have hfuel2 : (rem.drop limit).length < fuel := by
            rw [List.length_drop]
            omega
          have hsuf2 : ∃ pre2, history = pre2 ++ rem.drop limit := by
            refine ⟨pre ++ (m0 :: ms), ?_⟩
            rw [hpre]
            conv_lhs => rw [hremsplit]
            rw [List.append_assoc]
          have hfilter2 : history.filter
              (fun m => (rem.get ⟨limit - 1, hlt⟩).id == 0
                || decide (m.id < (rem.get ⟨limit - 1, hlt⟩).id)) = rem.drop limit := by
            rw [List.filter_congr (fun x _ => by rw [hne0, Bool.false_or])]
            rw [hpre]
            exact sorted_filter_lt_eq_drop pre rem limit (hpre ▸ hsort) hle hlim hlt
          obtain ⟨extra2, emitted2, heq, hsub2, hpw2, hmem2, hbound2⟩ :=
            ih (rem.drop limit) (rem.get ⟨limit - 1, hlt⟩).id
              (acc ++ ((m0 :: ms).takeWhile (fun m => !decide (m.date < start))))
              (curs ++ [offset]) hfuel2 hsuf2 hfilter2
          refine ⟨(rem.get ⟨limit - 1, hlt⟩).id :: extra2,
            ((m0 :: ms).takeWhile (fun m => !decide (m.date < start))) ++ emitted2,
            ?_, ?_, ?_, ?_, ?_⟩
          · rw [heq]
            simp [List.append_assoc]
          · rw [hretall]
            conv_rhs => rw [hremsplit]
            exact List.Sublist.append (List.Sublist.refl _) hsub2
          · rw [List.pairwise_cons]
            refine ⟨?_, hpw2⟩
            intro x hx
            rcases hbound2 x hx with h0 | hlt2
            · omega
            · exact hlt2
          · intro x hx
            rcases List.mem_cons.mp hx with rfl | hx
            · exact ⟨rem.get ⟨limit - 1, hlt⟩, hcmem, rfl⟩
            · obtain ⟨m, hm, hxm⟩ := hmem2 x hx
              refine ⟨m, ?_, hxm⟩
              rw [hremsplit]
              exact List.mem_append.mpr (Or.inr hm)
          · intro x hx
            by_cases h0 : offset = 0
            · exact Or.inl h0
            · refine Or.inr ?_
              have hcbound : (rem.get ⟨limit - 1, hlt⟩).id < offset :=
                hbnd h0 _ hcmem
              rcases List.mem_cons.mp hx with rfl | hx
              · exact hcbound
              · rcases hbound2 x hx with hc0 | hxc
                · omega
                · omega

/-- C9: within one channel's crawl (history with strictly decreasing,
positive identifiers; page size `limit > 0`) the pagination cursor starts at
the sentinel 0 and every later cursor — each the oldest item identifier of
the page it follows — strictly decreases, so no two requests carry the same
cursor (the crawl never re-requests an already-seen page) and the items are
emitted newest-first (strictly decreasing identifiers). -/
theorem C9_crawl_cursor_monotone (history : List TMessage) (limit : Nat)
    (now lookback : Int)
    (hid : List.Pairwise (fun a b => b.id < a.id) history)
    (hpos : ∀ m ∈ history, 0 < m.id)
    (hlim : 0 < limit) :
    (scrape_cursors history limit now lookback).head? = some 0
      ∧ List.Pairwise (fun a b => b < a) (scrape_cursors history limit now lookback).tail
      ∧ (∀ x ∈ (scrape_cursors history limit now lookback).tail,
          ∃ m, m ∈ history ∧ x = m.id)
      ∧ (scrape_cursors history limit now lookback).Nodup
      ∧ List.Pairwise (fun a b => b.id < a.id)
          (scrape_channel history limit now lookback) := by
  obtain ⟨extra, emitted, heq, hsub, hpw, hmem, _⟩ :=
    scrapeLoopTrace_cursors history limit (now - lookback) hid hpos hlim
      (history.length + 1) history 0 [] [] (by omega) ⟨[], rfl⟩
      (by
        rw [List.filter_eq_self]
        intro a _
        rfl)
  rw [scrape_cursors, scrape_channel, heq]
  simp only [List.nil_append]
  refine ⟨rfl, hpw, hmem, ?_, ?_⟩
  · rw [List.nodup_cons]
    constructor
    · intro h0
      obtain ⟨m, hm, hx⟩ := hmem 0 h0
      have := hpos m hm
      omega
    · exact hpw.imp fun hab => Nat.ne_of_gt hab
  · exact List.Pairwise.sublist hsub hid

/-- C9 (witness): three messages with ids 30, 20, 10, page size 2 — the
crawl issues requests at cursors 0 then 20 (the oldest id of page one),
strictly decreasing after the sentinel, with no repeats, and emits ids
30, 20, 10 newest-first. -/
theorem C9_crawl_cursor_monotone_witness :
    List.Pairwise (fun a b => b.id < a.id)
        [⟨30, 100⟩, ⟨20, 90⟩, (⟨10, 10⟩ : TMessage)]
      ∧ (∀ m ∈ [⟨30, 100⟩, ⟨20, 90⟩, (⟨10, 10⟩ : TMessage)], 0 < m.id)
      ∧ (0 : Nat) < 2
      ∧ ((scrape_cursors [⟨30, 100⟩, ⟨20, 90⟩, (⟨10, 10⟩ : TMessage)] 2 100 95).head?
            = some 0
          ∧ List.Pairwise (fun a b => b < a)
              (scrape_cursors [⟨30, 100⟩, ⟨20, 90⟩, (⟨10, 10⟩ : TMessage)] 2 100 95).tail
          ∧ (∀ x ∈ (scrape_cursors [⟨30, 100⟩, ⟨20, 90⟩,
                (⟨10, 10⟩ : TMessage)] 2 100 95).tail,
              ∃ m, m ∈ [⟨30, 100⟩, ⟨20, 90⟩, (⟨10, 10⟩ : TMessage)] ∧ x = m.id)
          ∧ (scrape_cursors [⟨30, 100⟩, ⟨20, 90⟩, (⟨10, 10⟩ : TMessage)] 2 100 95).Nodup
          ∧ List.Pairwise (fun a b => b.id < a.id)
              (scrape_channel [⟨30, 100⟩, ⟨20, 90⟩, (⟨10, 10⟩ : TMessage)] 2 100 95)) :=
  ⟨by decide, by decide, by decide,
    C9_crawl_cursor_monotone [⟨30, 100⟩, ⟨20, 90⟩, (⟨10, 10⟩ : TMessage)] 2 100 95
      (by decide) (by decide) (by decide)⟩
